import Mathlib

/-!
Verification of the cron-expression engine (normalizer, field parser, run
scheduler) of the repository.  Strings are modelled as `List Char`; the
JavaScript `Set` of matched integers is modelled as a `Finset Int` (the code
relies only on membership, de-duplication, and a final ascending sort); the
errors thrown by the parser are modelled as a structured inductive whose
constructors carry exactly the data interpolated into the thrown messages.
-/

namespace Cron

/-- Coerce a string literal to the character-list representation used here. -/
def str (s : String) : List Char := s.data

/-- Whitespace predicate used by `trim` and the field splitter. -/
def isWS (c : Char) : Bool := c.isWhitespace

/-- Word characters in the sense of the regex `\b` boundary: `[A-Za-z0-9_]`. -/
def isWordChar (c : Char) : Bool := c.isAlphanum || c = '_'

/-- Model of `String.prototype.trim`: drop whitespace from both ends. -/
def trimChars (l : List Char) : List Char :=
  ((l.dropWhile isWS).reverse.dropWhile isWS).reverse

/-- Model of `expr.trim().toLowerCase()` from `normalizeExpression`. -/
def lcTrim (l : List Char) : List Char := (trimChars l).map Char.toLower

/-- Class of a run: `true` for word runs (judged by the first char). -/
def runClass (r : List Char) : Bool := isWordChar (r.headD (' '))

/-- Maximal runs of characters of equal word-char class.  A regex
word-bounded (`\b…\b`) whole-word replacement rewrites exactly the word
runs of this decomposition. -/
def splitRuns : List Char → List (List Char)
  | [] => []
  | c :: cs =>
    match splitRuns cs with
    | [] => [[c]]
    | r :: rs =>
      if isWordChar c = runClass r then (c :: r) :: rs
      else [c] :: r :: rs

/-- Rewrite one run: word runs go through `f`, separators are kept. -/
def applyRun (f : List Char → List Char) (r : List Char) : List Char :=
  if runClass r then f r else r

/-- Apply `f` to every maximal word run, keeping separators untouched.
This embeds a global word-bounded regex replacement. -/
def tokenMap (f : List Char → List Char) (l : List Char) : List Char :=
  ((splitRuns l).map (applyRun f)).flatten

/-- The replacement table built by `normalizeExpression`: the twelve
three-letter month names mapped to 1..12 (from `MONTH_ABBR`), then the
seven day names mapped to 0..6 (from `DAY_ABBR`, indices below 7).  The
names are distinct and every replacement is a digit string, so the
sequence of nineteen global word-bounded replacements performed by the
source is equivalent to this single table lookup per word token. -/
def nameTable : List (List Char × List Char) :=
  [(str ("jan"), str ("1")), (str ("feb"), str ("2")), (str ("mar"), str ("3")),
   (str ("apr"), str ("4")), (str ("may"), str ("5")), (str ("jun"), str ("6")),
   (str ("jul"), str ("7")), (str ("aug"), str ("8")), (str ("sep"), str ("9")),
   (str ("oct"), str ("10")), (str ("nov"), str ("11")), (str ("dec"), str ("12")),
   (str ("sun"), str ("0")), (str ("mon"), str ("1")), (str ("tue"), str ("2")),
   (str ("wed"), str ("3")), (str ("thu"), str ("4")), (str ("fri"), str ("5")),
   (str ("sat"), str ("6"))]

/-- Substitute a single word token through the name table. -/
def substName (t : List Char) : List Char :=
  match nameTable.find? (fun p => p.1 == t) with
  | some p => p.2
  | none => t

/-- The `SPECIAL_STRINGS` alias table. -/
def specialStrings : List (List Char × List Char) :=
  [(str ("@yearly"), str ("0 0 1 1 *")),
   (str ("@annually"), str ("0 0 1 1 *")),
   (str ("@monthly"), str ("0 0 1 * *")),
   (str ("@weekly"), str ("0 0 * * 0")),
   (str ("@daily"), str ("0 0 * * *")),
   (str ("@midnight"), str ("0 0 * * *")),
   (str ("@hourly"), str ("0 * * * *"))]

/-- Model of `normalizeExpression`: trim and lowercase, expand a named
alias if the whole input is one, otherwise replace whole-word month and
day names by their numeric equivalents. -/
def normalizeExpression (expr : List Char) : List Char :=
  match specialStrings.find? (fun p => p.1 == lcTrim expr) with
  | some p => p.2
  | none => tokenMap substName (lcTrim expr)

/-- Split on every character satisfying `sep`, keeping empty pieces,
like `String.prototype.split` with a single-character separator. -/
def splitOnP (sep : Char → Bool) : List Char → List (List Char)
  | [] => [[]]
  | c :: cs =>
    if sep c then [] :: splitOnP sep cs
    else (c :: (splitOnP sep cs).headD []) :: (splitOnP sep cs).tail

/-- Join pieces with a separator character (inverse of `splitOnP` when no
piece contains the separator). -/
def joinSep (sep : Char) : List (List Char) → List Char
  | [] => []
  | [p] => p
  | p :: ps => p ++ sep :: joinSep sep ps

/-- Numeric value of a digit string (most significant first). -/
def digitsVal (l : List Char) : Nat := l.foldl (fun a c => a * 10 + (c.toNat - 48)) 0

/-- Model of JavaScript `parseInt(s, 10)` restricted to its integer-valued
behaviour: skip leading whitespace, read an optional sign, then take the
longest leading digit prefix; `none` models `NaN` (no digits). -/
def parseIntUnsigned (l : List Char) : Option Nat :=
  if l.takeWhile Char.isDigit = [] then none
  else some (digitsVal (l.takeWhile Char.isDigit))

/-- Sign handling of `parseInt`: an optional leading `-` or `+` after the
skipped whitespace, applied to the unsigned digit-prefix value. -/
def parseIntL (l : List Char) : Option Int :=
  match l.dropWhile isWS with
  | [] => none
  | c :: r =>
    if c = '-' then (parseIntUnsigned r).map (fun n => -(n : Int))
    else if c = '+' then (parseIntUnsigned r).map (fun n => (n : Int))
    else (parseIntUnsigned (c :: r)).map (fun n => (n : Int))

/-- Decimal digit rendering of a natural number, with explicit fuel so
that the definition is structural (the fuel `n + 1` always suffices). -/
def natToCharsAux : Nat → Nat → List Char
  | 0, _ => []
  | fuel + 1, n =>
    if n < 10 then [Nat.digitChar n]
    else natToCharsAux fuel (n / 10) ++ [Nat.digitChar (n % 10)]

/-- Decimal digit rendering of a natural number. -/
def natToChars (n : Nat) : List Char := natToCharsAux (n + 1) n

/-- The five cron fields, in the order of `FIELD_NAMES`. -/
inductive FieldName
  | minute
  | hour
  | dayOfMonth
  | month
  | dayOfWeek
deriving DecidableEq

/-- Lower bound of `FIELD_RANGES` for each field. -/
def rmin : FieldName → Int
  | .minute => 0
  | .hour => 0
  | .dayOfMonth => 1
  | .month => 1
  | .dayOfWeek => 0

/-- Upper bound of `FIELD_RANGES` for each field (7 for day-of-week: the
source accepts 7 on input and normalizes it to 0). -/
def rmax : FieldName → Int
  | .minute => 59
  | .hour => 23
  | .dayOfMonth => 31
  | .month => 12
  | .dayOfWeek => 7

/-- Insertion normalization: day-of-week 7 is stored as 0. -/
def addVal (fn : FieldName) (v : Int) : Int :=
  if fn = .dayOfWeek ∧ v = 7 then 0 else v

/-- The set produced by the wildcard branch of `parseField`: every value
in the field's range, skipping 7 for day-of-week. -/
def wildcardSet (fn : FieldName) : Finset Int :=
  (Finset.Icc (rmin fn) (rmax fn)).filter (fun i => ¬(fn = .dayOfWeek ∧ i = 7))

/-- Values visited by the loop `for (i = a; i <= b; i += step)` with a
positive step, in closed form. -/
def stepRange (a b step : Int) : List Int :=
  if a > b then []
  else (List.range (((b - a) / step).toNat + 1)).map (fun k => a + step * (k : Int))

/-- Bounds filter and day-of-week normalization applied to an expanded
range or step sequence before insertion into the value set. -/
def inBoundsFilter (fn : FieldName) (l : List Int) : Finset Int :=
  ((l.filter (fun i => decide (rmin fn ≤ i ∧ i ≤ rmax fn))).map (addVal fn)).toFinset

/-- Structured model of the errors thrown by the parser; each constructor
carries exactly the data interpolated into the corresponding message. -/
inductive ParseError
  | invalidStep (stepStr : List Char) (fn : FieldName)
  | invalidRange (part : List Char) (fn : FieldName)
  | invalidValue (part : List Char) (fn : FieldName)
  | outOfRange (val : Int) (fn : FieldName) (lo hi : Int)
  | wrongFieldCount (n : Nat)
deriving DecidableEq

/-- FormatError in the spec's taxonomy: every structural failure. -/
def ParseError.isFormatError : ParseError → Bool
  | .outOfRange _ _ _ _ => false
  | _ => true

/-- RangeError in the spec's taxonomy: a literal value outside bounds. -/
def ParseError.isRangeError : ParseError → Bool
  | .outOfRange _ _ _ _ => true
  | _ => false

deriving instance DecidableEq for Except

/-- Expansion of the base of a step term: `*` is the whole range, `a-b`
is the two parsed bounds, a bare token is `a` to the field maximum; a
bound that fails to parse (`NaN`) makes the loop run zero times, giving
the empty set without an error. -/
def stepExpand (fn : FieldName) (rangeStr : List Char) (step : Int) : Finset Int :=
  if rangeStr = str ("*") then inBoundsFilter fn (stepRange (rmin fn) (rmax fn) step)
  else if ('-') ∈ rangeStr then
    match parseIntL ((splitOnP (· == '-') rangeStr).getD 0 []),
          parseIntL ((splitOnP (· == '-') rangeStr).getD 1 []) with
    | some a, some b => inBoundsFilter fn (stepRange a b step)
    | _, _ => ∅
  else
    match parseIntL rangeStr with
    | some a => inBoundsFilter fn (stepRange a (rmax fn) step)
    | none => ∅

/-- One comma-separated term of a field, following the branch structure of
the loop body of `parseField`: step values, then ranges, then single
values. -/
def parsePart (p : List Char) (fn : FieldName) : Except ParseError (Finset Int) :=
  if ('/') ∈ p then
    match parseIntL ((splitOnP (· == '/') p).getD 1 []) with
    | none => .error (.invalidStep ((splitOnP (· == '/') p).getD 1 []) fn)
    | some step =>
      if step ≤ 0 then .error (.invalidStep ((splitOnP (· == '/') p).getD 1 []) fn)
      else .ok (stepExpand fn ((splitOnP (· == '/') p).getD 0 []) step)
  else if ('-') ∈ p then
    match parseIntL ((splitOnP (· == '-') p).getD 0 []),
          parseIntL ((splitOnP (· == '-') p).getD 1 []) with
    | some a, some b => .ok (inBoundsFilter fn (stepRange a b 1))
    | _, _ => .error (.invalidRange p fn)
  else
    match parseIntL p with
    | none => .error (.invalidValue p fn)
    | some v =>
      if v < rmin fn ∨ v > rmax fn then .error (.outOfRange v fn (rmin fn) (rmax fn))
      else .ok {addVal fn v}

/-- Accumulate the value sets of all comma-separated terms, stopping at
the first failing term exactly as the throwing loop does. -/
def parseParts (fn : FieldName) : List (List Char) → Except ParseError (Finset Int)
  | [] => .ok ∅
  | p :: ps =>
    match parsePart p fn with
    | .error e => .error e
    | .ok s =>
      match parseParts fn ps with
      | .error e => .error e
      | .ok rest => .ok (s ∪ rest)

/-- A parsed field: its matched value set and the wildcard flag. -/
structure FieldSpec where
  values : Finset Int
  isWildcard : Bool
deriving DecidableEq

/-- The ascending listing `Array.from(values).sort((a, b) => a - b)` that
`parseField` returns. -/
def FieldSpec.sortedValues (f : FieldSpec) : List Int := f.values.sort (· ≤ ·)

/-- Model of `parseField`: the bare wildcard, or a comma list of terms. -/
def parseField (field : List Char) (fn : FieldName) : Except ParseError FieldSpec :=
  if field = str ("*") then .ok ⟨wildcardSet fn, true⟩
  else (parseParts fn (splitOnP (· == ',') field)).map (fun vs => ⟨vs, false⟩)

/-- A fully parsed schedule: one `FieldSpec` per field. -/
structure ParsedSchedule where
  minute : FieldSpec
  hour : FieldSpec
  dayOfMonth : FieldSpec
  month : FieldSpec
  dayOfWeek : FieldSpec
deriving DecidableEq

/-- The whitespace-separated fields of the normalized expression,
modelling `normalized.split(/\s+/)` on the trimmed normalized string. -/
def cronFields (expr : List Char) : List (List Char) :=
  (splitOnP isWS (normalizeExpression expr)).filter (fun w => w ≠ [])

/-- Model of `parseCronExpression`: normalize, split on whitespace,
require exactly five fields, and parse each field in order. -/
def parseCronExpression (expr : List Char) : Except ParseError ParsedSchedule :=
  if (cronFields expr).length = 5 then do
    let minute ← parseField ((cronFields expr).getD 0 []) .minute
    let hour ← parseField ((cronFields expr).getD 1 []) .hour
    let dom ← parseField ((cronFields expr).getD 2 []) .dayOfMonth
    let month ← parseField ((cronFields expr).getD 3 []) .month
    let dow ← parseField ((cronFields expr).getD 4 []) .dayOfWeek
    .ok ⟨minute, hour, dom, month, dow⟩
  else .error (.wrongFieldCount (cronFields expr).length)

/-- Proleptic Gregorian civil date (year, month, day) of a day number
counted from 1970-01-01, by the standard era/day-of-era arithmetic; this
models the calendar-correct rollover of the JavaScript `Date` the
scheduler steps through. -/
def civilFromDays (z0 : Nat) : Nat × Nat × Nat :=
  let z := z0 + 719468
  let era := z / 146097
  let doe := z % 146097
  let yoe := (doe - doe / 1460 + doe / 36524 - doe / 146096) / 365
  let doy := doe - (365 * yoe + yoe / 4 - yoe / 100)
  let mp := (5 * doy + 2) / 153
  let d := doy - (153 * mp + 2) / 5 + 1
  let m := if mp < 10 then mp + 3 else mp - 9
  let y := yoe + era * 400
  (if m ≤ 2 then y + 1 else y, m, d)

/-- Day number (days since 1970-01-01) of an instant in minutes. -/
def dayNumber (t : Nat) : Nat := t / 1440

/-- Minute-of-hour of an instant in minutes (`date.getMinutes()`). -/
def minuteOfInstant (t : Nat) : Int := (t % 60 : Nat)

/-- Hour-of-day of an instant in minutes (`date.getHours()`). -/
def hourOfInstant (t : Nat) : Int := (t / 60 % 24 : Nat)

/-- One-based month of an instant (`date.getMonth() + 1`). -/
def monthOfInstant (t : Nat) : Int := ((civilFromDays (dayNumber t)).2.1 : Nat)

/-- Day-of-month of an instant (`date.getDate()`). -/
def domOfInstant (t : Nat) : Int := ((civilFromDays (dayNumber t)).2.2 : Nat)

/-- Day-of-week of an instant, 0 = Sunday (`date.getDay()`);
1970-01-01 was a Thursday. -/
def dowOfInstant (t : Nat) : Int := ((dayNumber t + 4) % 7 : Nat)

/-- The candidate test of the `getNextRuns` loop, byte for byte: the
conjunction at lines 319-323 followed by the dual-restricted re-check at
lines 327-333 of the source. -/
def matchesInstant (p : ParsedSchedule) (t : Nat) : Bool :=
  decide (minuteOfInstant t ∈ p.minute.values) &&
  decide (hourOfInstant t ∈ p.hour.values) &&
  decide (monthOfInstant t ∈ p.month.values) &&
  (decide (domOfInstant t ∈ p.dayOfMonth.values) || p.dayOfMonth.isWildcard) &&
  (decide (dowOfInstant t ∈ p.dayOfWeek.values) || p.dayOfWeek.isWildcard) &&
  (if !p.dayOfMonth.isWildcard && !p.dayOfWeek.isWildcard then
     decide (domOfInstant t ∈ p.dayOfMonth.values) ||
     decide (dowOfInstant t ∈ p.dayOfWeek.values)
   else true)

/-- Day condition as the specification words it: OR of the two day fields
when both are restricted, the restricted one alone when only one is, and
always true when both are wildcards.  Kept separate from the code model
`matchesInstant` so the two can be compared. -/
def specDayCondition (p : ParsedSchedule) (dom dow : Int) : Bool :=
  if !p.dayOfMonth.isWildcard && !p.dayOfWeek.isWildcard then
    decide (dom ∈ p.dayOfMonth.values) || decide (dow ∈ p.dayOfWeek.values)
  else if !p.dayOfMonth.isWildcard then decide (dom ∈ p.dayOfMonth.values)
  else if !p.dayOfWeek.isWildcard then decide (dow ∈ p.dayOfWeek.values)
  else true

/-- The minute-stepping loop of `getNextRuns`: `date` is the candidate
minute, `count` the number of results still wanted, and the fuel is the
remaining iteration budget (`maxIterations - iterations`). -/
def getNextRunsFrom (p : ParsedSchedule) : Nat → Nat → Nat → List Nat
  | _, _, 0 => []
  | date, count, fuel + 1 =>
    if count = 0 then []
    else if matchesInstant p date then
      date :: getNextRunsFrom p (date + 1) (count - 1) fuel
    else getNextRunsFrom p (date + 1) count fuel

/-- The horizon `maxIterations` of `getNextRuns`: one year of minutes. -/
def horizonMinutes : Nat := 525600

/-- Model of `getNextRuns`: the start instant (in seconds) has its seconds
truncated and one minute added, then the loop examines at most
`horizonMinutes` candidate minutes. -/
def getNextRuns (p : ParsedSchedule) (startSec : Nat) (count : Nat) : List Nat :=
  getNextRunsFrom p (startSec / 60 + 1) count horizonMinutes

/-- Largest value that can actually be stored for a field: 7 is turned
into 0 for day-of-week before insertion, so 6 is the effective maximum
there. -/
def effMax (fn : FieldName) : Int := if fn = .dayOfWeek then 6 else rmax fn

/-- Union of the expansions of a list of already-parsed terms. -/
def unionParts (fn : FieldName) (parts : List (List Char)) : Finset Int :=
  parts.foldr (fun p acc => ((parsePart p fn).toOption.getD ∅) ∪ acc) ∅

/-- The parse of `0 0 15 * 1`: minute 0, hour 0, day-of-month 15, every
month, day-of-week Monday — both day fields restricted. -/
def sched15Mon : ParsedSchedule :=
  ⟨⟨{0}, false⟩, ⟨{0}, false⟩, ⟨{15}, false⟩,
    ⟨({1, 2, 3, 4, 5, 6, 7, 8, 9, 10, 11, 12} : Finset Int), true⟩, ⟨{1}, false⟩⟩

/-- Minutes since 1970-01-01 00:00 of 2025-07-15 00:00, a Tuesday that is
the 15th of the month. -/
def tue15Minutes : Nat := 29208960

/-! ### The run-scheduler loop, characterized -/

theorem getNextRunsFrom_eq (p : ParsedSchedule) (fuel : Nat) :
    ∀ d count, getNextRunsFrom p d count fuel =
      ((List.range' d fuel).filter (fun t => matchesInstant p t)).take count := by
  induction fuel with
  | zero => intro d count; simp [getNextRunsFrom]
  | succ f ih =>
    intro d count
    rw [List.range'_succ]
    rcases Nat.eq_zero_or_pos count with hc | hc
    · subst hc; simp [getNextRunsFrom]
    · obtain ⟨k, rfl⟩ := Nat.exists_eq_add_of_lt hc
      by_cases hm : matchesInstant p d
      · simp [getNextRunsFrom, hm, List.filter_cons, ih]
      · simp [getNextRunsFrom, hm, List.filter_cons, ih]

/-- Each run produced from minute `d` is at least `d`. -/
theorem getNextRunsFrom_mem_ge (p : ParsedSchedule) (fuel d count : Nat) :
    ∀ t ∈ getNextRunsFrom p d count fuel, d ≤ t := by
  intro t ht
  rw [getNextRunsFrom_eq] at ht
  have ht2 := List.mem_of_mem_filter (List.mem_of_mem_take ht)
  obtain ⟨i, _, rfl⟩ := List.mem_range'.1 ht2
  omega

/-- C3: for every parsed schedule, start instant, and requested count, the
sequence returned by the run scheduler is strictly increasing (hence
duplicate-free), has length at most `count`, and every returned instant
is strictly later than the start instant (the search starts at the start
instant with seconds truncated plus one minute). -/
theorem C3_runs_increasing_bounded_after_start
    (p : ParsedSchedule) (startSec count : Nat) :
    List.Pairwise (· < ·) (getNextRuns p startSec count) ∧
    (getNextRuns p startSec count).length ≤ count ∧
    ∀ t ∈ getNextRuns p startSec count, startSec < 60 * t := by
  rw [getNextRuns, getNextRunsFrom_eq]
  refine ⟨?_, ?_, ?_⟩
  · exact List.Pairwise.sublist
      ((List.take_sublist _ _).trans (List.filter_sublist _))
      (List.pairwise_lt_range' _ _ _ (by norm_num))
  · exact List.length_take_le _ _
  · intro t ht
    have ht2 := List.mem_of_mem_filter (List.mem_of_mem_take ht)
    obtain ⟨i, _, rfl⟩ := List.mem_range'.1 ht2
    omega

/-- C4: the run scheduler is a total function that examines exactly the
`horizonMinutes`-minute window after the (truncated, incremented) start
instant and returns the matching minutes found there, truncated to
`count`: when the window holds fewer than `count` matches the result is
the shorter (possibly empty) list of all of them, and its length never
exceeds the horizon. -/
theorem C4_scheduler_characterization
    (p : ParsedSchedule) (startSec count : Nat) :
    getNextRuns p startSec count =
      ((List.range' (startSec / 60 + 1) horizonMinutes).filter
        (fun t => matchesInstant p t)).take count ∧
    (getNextRuns p startSec count).length ≤ horizonMinutes := by
  constructor
  · rw [getNextRuns, getNextRunsFrom_eq]
  · rw [getNextRuns, getNextRunsFrom_eq]
    calc (((List.range' (startSec / 60 + 1) horizonMinutes).filter
            (fun t => matchesInstant p t)).take count).length
        ≤ ((List.range' (startSec / 60 + 1) horizonMinutes).filter
            (fun t => matchesInstant p t)).length :=
          (List.take_sublist _ _).length_le
      _ ≤ (List.range' (startSec / 60 + 1) horizonMinutes).length :=
          List.length_filter_le _ _
      _ = horizonMinutes := List.length_range' _ _ _

/-! ### Bounds invariants of the field parser -/

theorem mem_inBoundsFilter {fn : FieldName} {l : List Int} {v : Int}
    (h : v ∈ inBoundsFilter fn l) : rmin fn ≤ v ∧ v ≤ effMax fn := by
  unfold inBoundsFilter at h
  simp only [List.mem_toFinset, List.mem_map, List.mem_filter,
    decide_eq_true_eq] at h
  obtain ⟨i, ⟨_, hlo, hhi⟩, rfl⟩ := h
  unfold addVal effMax
  by_cases hd : fn = FieldName.dayOfWeek ∧ i = 7
  · rw [if_pos hd]
    rcases hd with ⟨h1, _⟩
    subst h1
    simp [rmin]
  · rw [if_neg hd]
    refine ⟨hlo, ?_⟩
    by_cases hfn : fn = FieldName.dayOfWeek
    · subst hfn
      rw [if_pos rfl]
      simp only [rmax] at hhi
      have : i ≠ 7 := fun he => hd ⟨rfl, he⟩
      omega
    · rw [if_neg hfn]
      exact hhi

theorem mem_stepExpand {fn : FieldName} {rs : List Char} {step v : Int}
    (h : v ∈ stepExpand fn rs step) : rmin fn ≤ v ∧ v ≤ effMax fn := by
  unfold stepExpand at h
  split at h
  · exact mem_inBoundsFilter h
  · split at h
    · split at h
      · exact mem_inBoundsFilter h
      · simp at h
    · split at h
      · exact mem_inBoundsFilter h
      · simp at h

theorem mem_addVal_singleton {fn : FieldName} {v0 v : Int}
    (hlo : rmin fn ≤ v0) (hhi : v0 ≤ rmax fn)
    (h : v ∈ ({addVal fn v0} : Finset Int)) : rmin fn ≤ v ∧ v ≤ effMax fn := by
  rw [Finset.mem_singleton] at h
  subst h
  unfold addVal effMax
  by_cases hd : fn = FieldName.dayOfWeek ∧ v0 = 7
  · rw [if_pos hd]
    rcases hd with ⟨h1, _⟩
    subst h1
    simp [rmin]
  · rw [if_neg hd]
    refine ⟨hlo, ?_⟩
    by_cases hfn : fn = FieldName.dayOfWeek
    · subst hfn
      rw [if_pos rfl]
      simp only [rmax] at hhi
      have : v0 ≠ 7 := fun he => hd ⟨rfl, he⟩
      omega
    · rw [if_neg hfn]
      exact hhi

theorem parsePart_mem_bounds {p : List Char} {fn : FieldName} {s : Finset Int}
    (h : parsePart p fn = .ok s) {v : Int} (hv : v ∈ s) :
    rmin fn ≤ v ∧ v ≤ effMax fn := by
  unfold parsePart at h
  split at h
  · split at h
    · exact absurd h (by simp)
    · split at h
      · exact absurd h (by simp)
      · rw [Except.ok.injEq] at h
        subst h
        exact mem_stepExpand hv
  · split at h
    · split at h
      · rw [Except.ok.injEq] at h
        subst h
        exact mem_inBoundsFilter hv
      · exact absurd h (by simp)
    · split at h
      · exact absurd h (by simp)
      · rename_i v0 _
        split at h
        · exact absurd h (by simp)
        · rw [Except.ok.injEq] at h
          subst h
          rename_i hrange
          rw [not_or, not_lt, not_lt] at hrange
          exact mem_addVal_singleton hrange.1 hrange.2 hv

theorem parseParts_mem_bounds {fn : FieldName} :
    ∀ {ps : List (List Char)} {s : Finset Int},
      parseParts fn ps = .ok s → ∀ {v : Int}, v ∈ s →
      rmin fn ≤ v ∧ v ≤ effMax fn := by
  intro ps
  induction ps with
  | nil =>
    intro s h v hv
    rw [parseParts, Except.ok.injEq] at h
    subst h
    simp at hv
  | cons p ps ih =>
    intro s h v hv
    rw [parseParts] at h
    cases hp : parsePart p fn with
    | error e => rw [hp] at h; exact absurd h (by simp)
    | ok s1 =>
      rw [hp] at h
      cases hps : parseParts fn ps with
      | error e => rw [hps] at h; exact absurd h (by simp)
      | ok s2 =>
        rw [hps] at h
        rw [Except.ok.injEq] at h
        subst h
        rcases Finset.mem_union.1 hv with h1 | h2
        · exact parsePart_mem_bounds hp h1
        · exact ih hps h2

theorem mem_wildcardSet {fn : FieldName} {v : Int}
    (h : v ∈ wildcardSet fn) : rmin fn ≤ v ∧ v ≤ effMax fn := by
  unfold wildcardSet at h
  rw [Finset.mem_filter, Finset.mem_Icc] at h
  obtain ⟨⟨hlo, hhi⟩, hd⟩ := h
  refine ⟨hlo, ?_⟩
  unfold effMax
  by_cases hfn : fn = FieldName.dayOfWeek
  · subst hfn
    rw [if_pos rfl]
    simp only [rmax] at hhi
    have : v ≠ 7 := fun he => hd ⟨rfl, he⟩
    omega
  · rw [if_neg hfn]
    exact hhi

theorem parseField_mem_bounds {field : List Char} {fn : FieldName}
    {r : FieldSpec} (h : parseField field fn = .ok r) {v : Int}
    (hv : v ∈ r.values) : rmin fn ≤ v ∧ v ≤ effMax fn := by
  unfold parseField at h
  split at h
  · rw [Except.ok.injEq] at h
    subst h
    exact mem_wildcardSet hv
  · cases hp : parseParts fn (splitOnP (· == ',') field) with
    | error e => rw [hp] at h; exact absurd h (by simp [Except.map])
    | ok s =>
      rw [hp] at h
      simp only [Except.map, Except.ok.injEq] at h
      subst h
      exact parseParts_mem_bounds hp hv

/-- C2, refuted on the non-emptiness half: the inverted range `5-3` parses
successfully (the expansion loop simply never runs) and returns an empty
matched set, so a successful `parseField` does not guarantee a non-empty
`matchedValues`. -/
theorem C2_counterexample_empty_success :
    parseField (str ("5-3")) FieldName.minute = .ok ⟨∅, false⟩ := by decide

/-- C2 (amended): whenever `parseField` succeeds, every member of the
returned matched set lies within the field's legal bounds — at least
`rmin` and at most the effective maximum (59/23/31/12, and 6 for
day-of-week since 7 is normalized to 0) — but the set itself may be
empty. -/
theorem C2_values_within_bounds {field : List Char} {fn : FieldName}
    {r : FieldSpec} (h : parseField field fn = .ok r) :
    ∀ v ∈ r.values, rmin fn ≤ v ∧ v ≤ effMax fn :=
  fun _ hv => parseField_mem_bounds h hv

/-- Witness for C2 (amended) at the concrete field `5` for minutes and
its sole member 5. -/
theorem C2_values_within_bounds_witness :
    rmin FieldName.minute ≤ (5 : Int) ∧ (5 : Int) ≤ effMax FieldName.minute :=
  @C2_values_within_bounds (str ("5")) FieldName.minute ⟨{5}, false⟩ (by decide)
    5 (by decide)

/-- C8: the value 7 never appears in a day-of-week matched set — wildcard
expansion omits it and a literal, range or step occurrence of 7 is stored
as 0 — and in particular `7`, `0` and the list `0,7` all parse to the
singleton set containing 0. -/
theorem C8_day_of_week_seven_normalized :
    (∀ (field : List Char) (r : FieldSpec),
        parseField field FieldName.dayOfWeek = .ok r → (7 : Int) ∉ r.values) ∧
    parseField (str ("7")) FieldName.dayOfWeek = .ok ⟨{0}, false⟩ ∧
    parseField (str ("0")) FieldName.dayOfWeek = .ok ⟨{0}, false⟩ ∧
    parseField (str ("0,7")) FieldName.dayOfWeek = .ok ⟨{0}, false⟩ := by
  refine ⟨?_, by decide, by decide, by decide⟩
  intro field r h hv
  have h2 := (parseField_mem_bounds h hv).2
  rw [effMax, if_pos rfl] at h2
  omega

/-- Witness for C8 at the concrete field `7`. -/
theorem C8_day_of_week_seven_normalized_witness :
    (7 : Int) ∉ (FieldSpec.mk {0} false).values :=
  C8_day_of_week_seven_normalized.1 (str ("7")) ⟨{0}, false⟩ (by decide)

/-! ### The dual-restricted day condition (claim C1) -/

/-- C1, evaluated on the code at the failing input: for the schedule
`0 0 15 * 1` and the candidate minute 2025-07-15 00:00 (minute, hour and
month all match; the day-of-month value 15 is in the day-of-month matched
set, so the spec's OR day condition holds), the scheduler's candidate test
nevertheless rejects the minute: the guard at lines 319-323 of the source
already demands that *both* restricted day fields match before the OR
re-check at line 328 is reached, so the dual-restricted case behaves as
AND, contradicting the claim, the specification, and the code's own
comment ("In standard cron, it's OR logic"). -/
theorem C1_dual_day_restriction_is_and_not_or :
    parseCronExpression (str ("0 0 15 * 1")) = .ok sched15Mon ∧
    minuteOfInstant tue15Minutes = 0 ∧
    hourOfInstant tue15Minutes = 0 ∧
    monthOfInstant tue15Minutes = 7 ∧
    domOfInstant tue15Minutes = 15 ∧
    dowOfInstant tue15Minutes = 2 ∧
    sched15Mon.dayOfMonth.isWildcard = false ∧
    sched15Mon.dayOfWeek.isWildcard = false ∧
    specDayCondition sched15Mon 15 2 = true ∧
    matchesInstant sched15Mon tue15Minutes = false := by decide

/-! ### Splitting and joining comma lists -/

theorem splitOnP_cons_sep {sep : Char → Bool} {c : Char} (l : List Char)
    (h : sep c = true) : splitOnP sep (c :: l) = [] :: splitOnP sep l := by
  simp [splitOnP, h]

theorem splitOnP_cons_not {sep : Char → Bool} {c : Char} (l : List Char)
    (h : sep c = false) :
    splitOnP sep (c :: l) =
      (c :: (splitOnP sep l).headD []) :: (splitOnP sep l).tail := by
  simp [splitOnP, h]

theorem splitOnP_no_sep {sep : Char → Bool} {l : List Char}
    (h : ∀ c ∈ l, sep c = false) : splitOnP sep l = [l] := by
  induction l with
  | nil => rfl
  | cons c cs ih =>
    rw [splitOnP_cons_not cs (h c (List.mem_cons_self c cs)),
      ih (fun d hd => h d (List.mem_cons_of_mem c hd))]
    rfl

theorem splitOnP_word_append {sep : Char → Bool} {w : List Char} {c : Char}
    {t : List Char} (hw : ∀ a ∈ w, sep a = false) (hc : sep c = true) :
    splitOnP sep (w ++ c :: t) = w :: splitOnP sep t := by
  induction w with
  | nil => rw [List.nil_append, splitOnP_cons_sep t hc]
  | cons a w ih =>
    rw [List.cons_append,
      splitOnP_cons_not _ (hw a (List.mem_cons_self a w)),
      ih (fun d hd => hw d (List.mem_cons_of_mem a hd))]
    rfl

theorem splitOnP_joinSep {sc : Char} {parts : List (List Char)}
    (hne : parts ≠ [])
    (hn : ∀ p ∈ parts, ∀ c ∈ p, (c == sc) = false) :
    splitOnP (· == sc) (joinSep sc parts) = parts := by
  induction parts with
  | nil => exact absurd rfl hne
  | cons p ps ih =>
    cases ps with
    | nil => exact splitOnP_no_sep (hn p (List.mem_cons_self p []))
    | cons q ps2 =>
      have hj : joinSep sc (p :: q :: ps2) = p ++ sc :: joinSep sc (q :: ps2) := rfl
      rw [hj, splitOnP_word_append (hn p (List.mem_cons_self p _)) (by simp),
        ih (by simp) (fun r hr => hn r (List.mem_cons_of_mem p hr))]

theorem parseParts_ok_of_all_ok {fn : FieldName} :
    ∀ {ps : List (List Char)},
      (∀ p ∈ ps, ∃ s, parsePart p fn = .ok s) →
      parseParts fn ps = .ok (unionParts fn ps) := by
  intro ps
  induction ps with
  | nil => intro _; rfl
  | cons p ps ih =>
    intro h
    obtain ⟨s, hs⟩ := h p (List.mem_cons_self p ps)
    rw [parseParts, hs, ih (fun q hq => h q (List.mem_cons_of_mem p hq))]
    have hu : unionParts fn (p :: ps) =
        ((parsePart p fn).toOption.getD ∅) ∪ unionParts fn ps := rfl
    rw [hu, hs]
    rfl

/-- C5 (amended): a comma-joined list whose terms each parse successfully
as one of the non-wildcard shapes (`*/N`, `a`, `a-b`, `a-b/N`, `a/N`)
is accepted by `parseField`, which returns the union of all the terms'
expansions as one de-duplicated set whose displayed listing is strictly
ascending; a bare `*` occurring as one element of a list is *not* among
the accepted terms (it fails to parse, see the counterexample), so the
whole-field wildcard flag is false. -/
theorem C5_comma_list_union (fn : FieldName) (parts : List (List Char))
    (hne : parts ≠ [])
    (hn : ∀ p ∈ parts, ∀ c ∈ p, (c == ',') = false)
    (hok : ∀ p ∈ parts, ∃ s, parsePart p fn = .ok s) :
    parseField (joinSep (',') parts) fn = .ok ⟨unionParts fn parts, false⟩ ∧
    List.Sorted (· < ·)
      (FieldSpec.sortedValues ⟨unionParts fn parts, false⟩) := by
  have hstar : joinSep (',') parts ≠ str ("*") := by
    cases parts with
    | nil => exact absurd rfl hne
    | cons p ps =>
      cases ps with
      | nil =>
        intro he
        obtain ⟨s, hs⟩ := hok p (List.mem_cons_self p [])
        have hp : p = str ("*") := he
        have hperr : parsePart (str ("*")) fn =
            .error (.invalidValue (str ("*")) fn) := by
          cases fn <;> decide
        rw [hp, hperr] at hs
        exact Except.noConfusion hs
      | cons q ps2 =>
        intro he
        have hj : joinSep (',') (p :: q :: ps2) =
            p ++ ',' :: joinSep (',') (q :: ps2) := rfl
        rw [hj] at he
        cases p with
        | nil => exact absurd (List.head_eq_of_cons_eq he) (by decide)
        | cons a as =>
          rw [List.cons_append] at he
          have h2 := List.tail_eq_of_cons_eq he
          exact absurd (List.append_eq_nil.1 h2).2 (by simp)
  constructor
  · rw [parseField, if_neg hstar, splitOnP_joinSep hne hn,
      parseParts_ok_of_all_ok hok]
    rfl
  · exact Finset.sort_sorted_lt _

/-- Witness for C5 (amended) on the two-term list `5,1-3` for minutes. -/
theorem C5_comma_list_union_witness :
    parseField (joinSep (',') [str ("5"), str ("1-3")]) FieldName.minute =
      .ok ⟨unionParts FieldName.minute [str ("5"), str ("1-3")], false⟩ ∧
    List.Sorted (· < ·)
      (FieldSpec.sortedValues
        ⟨unionParts FieldName.minute [str ("5"), str ("1-3")], false⟩) :=
  C5_comma_list_union FieldName.minute [str ("5"), str ("1-3")]
    (by decide) (by decide)
    (by
      intro p hp
      rcases List.mem_cons.1 hp with rfl | hp2
      · exact ⟨{5}, by decide⟩
      · rcases List.mem_cons.1 hp2 with rfl | hp3
        · exact ⟨{1, 2, 3}, by decide⟩
        · simp at hp3)

/-- C5, refuted on the bare-`*` clause: `*` as one element of a comma
list reaches the single-value branch, where `parseInt` yields `NaN`, so
the whole field is rejected with the invalid-value FormatError instead of
contributing every value of the range. -/
theorem C5_counterexample_star_in_list :
    parseField (str ("*,5")) FieldName.minute =
      .error (.invalidValue (str ("*")) FieldName.minute) := by decide

/-! ### Decimal literals and `parseInt` -/

theorem digitChar_isDigit {d : Nat} (h : d < 10) :
    (Nat.digitChar d).isDigit = true := by
  have hall : ∀ e, e < 10 → (Nat.digitChar e).isDigit = true := by decide
  exact hall d h

theorem digitChar_val {d : Nat} (h : d < 10) :
    (Nat.digitChar d).toNat - 48 = d := by
  have hall : ∀ e, e < 10 → (Nat.digitChar e).toNat - 48 = e := by decide
  exact hall d h

theorem digitsVal_append_digit (l : List Char) (c : Char) :
    digitsVal (l ++ [c]) = digitsVal l * 10 + (c.toNat - 48) := by
  unfold digitsVal
  rw [List.foldl_append]
  rfl

theorem natToCharsAux_spec :
    ∀ fuel n, n < fuel →
      natToCharsAux fuel n ≠ [] ∧
      (∀ c ∈ natToCharsAux fuel n, c.isDigit = true) ∧
      digitsVal (natToCharsAux fuel n) = n := by
  intro fuel
  induction fuel with
  | zero => intro n h; omega
  | succ f ih =>
    intro n h
    rw [natToCharsAux]
    by_cases h10 : n < 10
    · rw [if_pos h10]
      refine ⟨by simp, ?_, ?_⟩
      · intro c hc
        rw [List.mem_singleton] at hc
        subst hc
        exact digitChar_isDigit h10
      · show digitsVal ([] ++ [Nat.digitChar n]) = n
        rw [digitsVal_append_digit]
        have := digitChar_val h10
        simp [digitsVal]
        omega
    · rw [if_neg h10]
      have hdivlt : n / 10 < n := Nat.div_lt_self (by omega) (by omega)
      have hn : n / 10 < f := by omega
      obtain ⟨hne, hdig, hval⟩ := ih (n / 10) hn
      refine ⟨by simp, ?_, ?_⟩
      · intro c hc
        rcases List.mem_append.1 hc with h1 | h1
        · exact hdig c h1
        · rw [List.mem_singleton] at h1
          subst h1
          exact digitChar_isDigit (Nat.mod_lt n (by omega))
      · rw [digitsVal_append_digit, hval, digitChar_val (Nat.mod_lt n (by omega))]
        omega

theorem natToChars_spec (n : Nat) :
    natToChars n ≠ [] ∧
    (∀ c ∈ natToChars n, c.isDigit = true) ∧
    digitsVal (natToChars n) = n :=
  natToCharsAux_spec (n + 1) n (Nat.lt_succ_self n)

theorem isDigit_not_isWS {c : Char} (h : c.isDigit = true) : isWS c = false := by
  by_contra hws
  rw [Bool.not_eq_false, isWS, Char.isWhitespace] at hws
  simp only [Bool.or_eq_true, decide_eq_true_eq] at hws
  rcases hws with ((h1 | h1) | h1) | h1 <;> subst h1 <;> exact absurd h (by decide)

theorem dropWhile_isWS_of_digits {l : List Char}
    (h : ∀ c ∈ l, c.isDigit = true) : l.dropWhile isWS = l := by
  cases l with
  | nil => rfl
  | cons c cs =>
    rw [List.dropWhile_cons,
      isDigit_not_isWS (h c (List.mem_cons_self c cs))]
    simp

theorem takeWhile_digits {l : List Char}
    (h : ∀ c ∈ l, c.isDigit = true) : l.takeWhile Char.isDigit = l := by
  induction l with
  | nil => rfl
  | cons c cs ih =>
    rw [List.takeWhile_cons, h c (List.mem_cons_self c cs), if_pos rfl,
      ih (fun d hd => h d (List.mem_cons_of_mem c hd))]

theorem isDigit_ne_specials {c : Char} (h : c.isDigit = true) :
    c ≠ '-' ∧ c ≠ '+' ∧ c ≠ '/' ∧ c ≠ ',' ∧ c ≠ '*' := by
  refine ⟨?_, ?_, ?_, ?_, ?_⟩ <;> rintro rfl <;> exact absurd h (by decide)

theorem parseIntL_digits {l : List Char} (hne : l ≠ [])
    (h : ∀ c ∈ l, c.isDigit = true) :
    parseIntL l = some ((digitsVal l : Nat) : Int) := by
  cases l with
  | nil => exact absurd rfl hne
  | cons c cs =>
    have hd := dropWhile_isWS_of_digits h
    have hcd := h c (List.mem_cons_self c cs)
    obtain ⟨hm, hp, _, _, _⟩ := isDigit_ne_specials hcd
    rw [parseIntL, hd]
    show (if c = '-' then (parseIntUnsigned cs).map (fun n => -(n : Int))
      else if c = '+' then (parseIntUnsigned cs).map (fun n => (n : Int))
      else (parseIntUnsigned (c :: cs)).map (fun n => (n : Int))) = _
    rw [if_neg hm, if_neg hp, parseIntUnsigned, takeWhile_digits h, if_neg hne]
    rfl

/-! ### Out-of-range literals (claim C7) -/

theorem parsePart_digits_out_of_range {fn : FieldName} {n : Nat}
    (h : (n : Int) < rmin fn ∨ (n : Int) > rmax fn) :
    parsePart (natToChars n) fn =
      .error (.outOfRange n fn (rmin fn) (rmax fn)) := by
  obtain ⟨hne, hdig, hval⟩ := natToChars_spec n
  have hslash : ('/') ∉ natToChars n := fun hm =>
    absurd (hdig _ hm) (by decide)
  have hdash : ('-') ∉ natToChars n := fun hm =>
    absurd (hdig _ hm) (by decide)
  rw [parsePart, if_neg hslash, if_neg hdash, parseIntL_digits hne hdig, hval]
  show (if (n : Int) < rmin fn ∨ (n : Int) > rmax fn then
      Except.error (ParseError.outOfRange (n : Int) fn (rmin fn) (rmax fn))
    else Except.ok {addVal fn (n : Int)}) = _
  rw [if_pos h]

theorem parseField_digits_out_of_range {fn : FieldName} {n : Nat}
    (h : (n : Int) < rmin fn ∨ (n : Int) > rmax fn) :
    parseField (natToChars n) fn =
      .error (.outOfRange n fn (rmin fn) (rmax fn)) := by
  obtain ⟨hne, hdig, _⟩ := natToChars_spec n
  have hstar : natToChars n ≠ str ("*") := by
    intro he
    have hm : ('*') ∈ natToChars n := by rw [he]; exact List.mem_singleton.2 rfl
    exact absurd (hdig _ hm) (by decide)
  have hnocomma : ∀ c ∈ natToChars n, (c == ',') = false := by
    intro c hc
    have := (isDigit_ne_specials (hdig c hc)).2.2.2.1
    simpa using this
  have hparts : parseParts fn [natToChars n] =
      .error (.outOfRange n fn (rmin fn) (rmax fn)) := by
    rw [parseParts, parsePart_digits_out_of_range h]
  rw [parseField, if_neg hstar, splitOnP_no_sep hnocomma, hparts]
  rfl

/-- C7: a syntactically valid decimal literal outside the field's legal
bounds is rejected with the range error that carries the offending field
name and the field's legal bounds; in particular `parseField("99", hour)`
fails naming bounds 0-23, and the whole five-field expression containing
it fails with that same error, so no partial schedule is produced. -/
theorem C7_out_of_range_literal :
    (∀ (fn : FieldName) (n : Nat),
        ((n : Int) < rmin fn ∨ (n : Int) > rmax fn) →
        parseField (natToChars n) fn =
          .error (.outOfRange n fn (rmin fn) (rmax fn))) ∧
    parseField (str ("99")) FieldName.hour =
      .error (.outOfRange 99 FieldName.hour 0 23) ∧
    (ParseError.outOfRange 99 FieldName.hour 0 23).isRangeError = true ∧
    parseCronExpression (str ("0 99 * * *")) =
      .error (.outOfRange 99 FieldName.hour 0 23) :=
  ⟨fun _ _ h => parseField_digits_out_of_range h, by decide, by decide, by decide⟩

/-- Witness for C7 at the literal 99 in the hour field. -/
theorem C7_out_of_range_literal_witness :
    parseField (natToChars 99) FieldName.hour =
      .error (.outOfRange 99 FieldName.hour 0 23) :=
  C7_out_of_range_literal.1 FieldName.hour 99 (by decide)

/-- C9: a step term whose step component does not parse as a positive
integer is rejected with the invalid-step FormatError (carrying the step
string and the field name); in particular `*/0` for minutes. -/
theorem C9_invalid_step :
    (∀ (p : List Char) (fn : FieldName),
        ('/') ∈ p →
        (parseIntL ((splitOnP (· == '/') p).getD 1 []) = none ∨
          ∃ k, parseIntL ((splitOnP (· == '/') p).getD 1 []) = some k ∧ k ≤ 0) →
        parsePart p fn =
          .error (.invalidStep ((splitOnP (· == '/') p).getD 1 []) fn)) ∧
    parseField (str ("*/0")) FieldName.minute =
      .error (.invalidStep (str ("0")) FieldName.minute) ∧
    (ParseError.invalidStep (str ("0")) FieldName.minute).isFormatError = true := by
  refine ⟨?_, by decide, by decide⟩
  intro p fn hmem hbad
  rw [parsePart, if_pos hmem]
  rcases hbad with hn | ⟨k, hk, hk0⟩
  · rw [hn]
  · rw [hk]
    show (if k ≤ 0 then
        Except.error (ParseError.invalidStep ((splitOnP (· == '/') p).getD 1 []) fn)
      else Except.ok (stepExpand fn ((splitOnP (· == '/') p).getD 0 []) k)) = _
    rw [if_pos hk0]

/-- Witness for C9 at the concrete step term with step 0. -/
theorem C9_invalid_step_witness :
    parsePart (str ("*/0")) FieldName.minute =
      .error (.invalidStep
        ((splitOnP (· == '/') (str ("*/0"))).getD 1 []) FieldName.minute) :=
  C9_invalid_step.1 (str ("*/0")) FieldName.minute (by decide)
    (Or.inr ⟨0, by decide, by decide⟩)

/-- C6: every three-letter month name placed as a whole word in the month
field normalizes to its 1-based number, every day name placed in the
day-of-week field normalizes to its 0-based number, both also when
written in upper case (case-insensitivity), and a name embedded in a
larger token (`janx`, `1jan`) is left untouched.  The first twelve
entries of `nameTable` are the month names with their numbers, the
remaining seven the day names with theirs. -/
theorem C6_name_substitution :
    (∀ i, i < 12 →
      normalizeExpression
          (str ("0 0 * ") ++ (nameTable.getD i ([], [])).1 ++ str (" *")) =
        str ("0 0 * ") ++ (nameTable.getD i ([], [])).2 ++ str (" *")) ∧
    (∀ j, j < 19 → 12 ≤ j →
      normalizeExpression
          (str ("0 0 * * ") ++ (nameTable.getD j ([], [])).1) =
        str ("0 0 * * ") ++ (nameTable.getD j ([], [])).2) ∧
    (∀ i, i < 12 →
      normalizeExpression
          (str ("0 0 * ") ++ ((nameTable.getD i ([], [])).1.map Char.toUpper)
            ++ str (" *")) =
        str ("0 0 * ") ++ (nameTable.getD i ([], [])).2 ++ str (" *")) ∧
    (∀ j, j < 19 → 12 ≤ j →
      normalizeExpression
          (str ("0 0 * * ") ++ ((nameTable.getD j ([], [])).1.map Char.toUpper)) =
        str ("0 0 * * ") ++ (nameTable.getD j ([], [])).2) ∧
    normalizeExpression (str ("0 0 * janx sun")) = str ("0 0 * janx 0") ∧
    normalizeExpression (str ("0 0 * 1jan sun")) = str ("0 0 * 1jan 0") :=
  ⟨by decide, by decide, by decide, by decide, by decide, by decide⟩

/-- Witness for C6 at the first month name (`jan`). -/
theorem C6_name_substitution_witness :
    normalizeExpression
        (str ("0 0 * ") ++ (nameTable.getD 0 ([], [])).1 ++ str (" *")) =
      str ("0 0 * ") ++ (nameTable.getD 0 ([], [])).2 ++ str (" *") :=
  C6_name_substitution.1 0 (by decide)

/-! ### Structure of the run decomposition -/

theorem splitRuns_cons (c : Char) (cs : List Char) :
    splitRuns (c :: cs) =
      match splitRuns cs with
      | [] => [[c]]
      | r :: rs =>
        if isWordChar c = runClass r then (c :: r) :: rs
        else [c] :: r :: rs := rfl

theorem splitRuns_ne_nil : ∀ (l : List Char), ∀ r ∈ splitRuns l, r ≠ [] := by
  intro l
  induction l with
  | nil => intro r hr; simp [splitRuns] at hr
  | cons c cs ih =>
    intro r hr
    rw [splitRuns_cons] at hr
    cases hsc : splitRuns cs with
    | nil =>
      simp only [hsc] at hr
      rw [List.mem_singleton] at hr
      subst hr
      simp
    | cons r0 rs =>
      simp only [hsc] at hr
      by_cases hw : isWordChar c = runClass r0
      · rw [if_pos hw] at hr
        rcases List.mem_cons.1 hr with rfl | h2
        · simp
        · exact ih r (hsc ▸ List.mem_cons_of_mem r0 h2)
      · rw [if_neg hw] at hr
        rcases List.mem_cons.1 hr with rfl | h2
        · simp
        · exact ih r (hsc ▸ h2)

theorem splitRuns_flatten : ∀ (l : List Char), (splitRuns l).flatten = l := by
  intro l
  induction l with
  | nil => rfl
  | cons c cs ih =>
    rw [splitRuns_cons]
    cases hsc : splitRuns cs with
    | nil =>
      have hnil : cs = [] := by rw [← ih, hsc]; rfl
      subst hnil
      rfl
    | cons r0 rs =>
      dsimp only
      have hflat : (r0 :: rs).flatten = cs := by rw [← hsc, ih]
      by_cases hw : isWordChar c = runClass r0
      · rw [if_pos hw]
        rw [List.flatten_cons] at hflat ⊢
        rw [List.cons_append, hflat]
      · rw [if_neg hw]
        rw [List.flatten_cons, List.singleton_append, hflat]

theorem splitRuns_homog :
    ∀ (l : List Char), ∀ r ∈ splitRuns l, ∀ a ∈ r, isWordChar a = runClass r := by
  intro l
  induction l with
  | nil => intro r hr; simp [splitRuns] at hr
  | cons c cs ih =>
    intro r hr a ha
    rw [splitRuns_cons] at hr
    cases hsc : splitRuns cs with
    | nil =>
      simp only [hsc] at hr
      rw [List.mem_singleton] at hr
      subst hr
      rw [List.mem_singleton] at ha
      subst ha
      rfl
    | cons r0 rs =>
      simp only [hsc] at hr
      by_cases hw : isWordChar c = runClass r0
      · rw [if_pos hw] at hr
        rcases List.mem_cons.1 hr with rfl | h2
        · have hcl : runClass (c :: r0) = isWordChar c := rfl
          rw [hcl]
          rcases List.mem_cons.1 ha with rfl | h3
          · rfl
          · rw [ih r0 (hsc ▸ List.mem_cons_self r0 rs) a h3, ← hw]
        · exact ih r (hsc ▸ List.mem_cons_of_mem r0 h2) a ha
      · rw [if_neg hw] at hr
        rcases List.mem_cons.1 hr with rfl | h2
        · rw [List.mem_singleton] at ha
          subst ha
          rfl
        · exact ih r (hsc ▸ h2) a ha

theorem splitRuns_chain (l : List Char) :
    List.Chain' (fun r s => runClass r ≠ runClass s) (splitRuns l) := by
  induction l with
  | nil => simp [splitRuns]
  | cons c cs ih =>
    rw [splitRuns_cons]
    cases hsc : splitRuns cs with
    | nil => simp
    | cons r0 rs =>
      rw [hsc] at ih
      dsimp only
      by_cases hw : isWordChar c = runClass r0
      · rw [if_pos hw]
        have hcl : runClass (c :: r0) = isWordChar c := rfl
        cases rs with
        | nil => simp
        | cons s rs2 =>
          rw [List.chain'_cons] at ih ⊢
          exact ⟨by rw [hcl, hw]; exact ih.1, ih.2⟩
      · rw [if_neg hw]
        rw [List.chain'_cons]
        exact ⟨by exact hw, ih⟩

theorem splitRuns_head_start (d : Char) (t : List Char) :
    ∃ ds rs, splitRuns (d :: t) = (d :: ds) :: rs := by
  rw [splitRuns_cons]
  cases splitRuns t with
  | nil => exact ⟨[], [], rfl⟩
  | cons r0 rs =>
    dsimp only
    by_cases hw : isWordChar d = runClass r0
    · rw [if_pos hw]; exact ⟨r0, rs, rfl⟩
    · rw [if_neg hw]; exact ⟨[], r0 :: rs, rfl⟩

theorem splitRuns_word_append {b : Bool} :
    ∀ {w : List Char}, w ≠ [] → (∀ a ∈ w, isWordChar a = b) →
      ∀ {t : List Char}, (∀ d, t.head? = some d → isWordChar d ≠ b) →
      splitRuns (w ++ t) = w :: splitRuns t := by
  intro w
  induction w with
  | nil => intro h; exact absurd rfl h
  | cons c w ih =>
    intro _ hw t ht
    cases hwnil : w with
    | nil =>
      subst hwnil
      cases t with
      | nil => rfl
      | cons d t' =>
        obtain ⟨ds, rs, hds⟩ := splitRuns_head_start d t'
        rw [List.cons_append, List.nil_append, splitRuns_cons, hds]
        have hneq : ¬(isWordChar c = runClass (d :: ds)) := by
          have h1 : runClass (d :: ds) = isWordChar d := rfl
          have h2 := ht d rfl
          have h3 := hw c (List.mem_cons_self c [])
          rw [h1, h3]
          exact fun he => h2 he.symm
        dsimp only
        rw [if_neg hneq, ← hds]
    | cons c2 w2 =>
      rw [← hwnil]
      have hwne : w ≠ [] := by rw [hwnil]; simp
      have hih := ih hwne (fun a ha => hw a (List.mem_cons_of_mem c ha)) ht
      rw [List.cons_append, splitRuns_cons, hih]
      dsimp only
      have hcl : runClass w = b := by
        rw [hwnil]
        show isWordChar c2 = b
        exact hw c2 (hwnil ▸ List.mem_cons_of_mem c (List.mem_cons_self c2 w2))
      rw [if_pos (by rw [hcl]; exact hw c (List.mem_cons_self c w))]

/-! ### The substitution applied to single runs -/

theorem substName_cases (t : List Char) :
    substName t = t ∨ ∃ q ∈ nameTable, substName t = q.2 := by
  rw [substName]
  cases hf : nameTable.find? (fun p => p.1 == t) with
  | none => exact Or.inl rfl
  | some q => exact Or.inr ⟨q, List.mem_of_find?_eq_some hf, rfl⟩

theorem nameTable_out_digits :
    ∀ q ∈ nameTable, q.2 ≠ [] ∧ ∀ c ∈ q.2, c.isDigit = true := by decide

theorem nameTable_out_not_name :
    ∀ q ∈ nameTable, nameTable.find? (fun p => p.1 == q.2) = none := by decide

theorem nameTable_out_toLower :
    ∀ q ∈ nameTable, ∀ c ∈ q.2, c.toLower = c := by decide

theorem isDigit_isWordChar {c : Char} (h : c.isDigit = true) :
    isWordChar c = true := by
  rw [isWordChar, Char.isAlphanum, h]
  simp

theorem substName_idem (t : List Char) :
    substName (substName t) = substName t := by
  rcases substName_cases t with h | ⟨q, hq, h⟩
  · rw [h]
    exact h
  · rw [h, substName, nameTable_out_not_name q hq]

theorem substName_word {t : List Char} (hne : t ≠ [])
    (hw : ∀ c ∈ t, isWordChar c = true) :
    substName t ≠ [] ∧ ∀ c ∈ substName t, isWordChar c = true := by
  rcases substName_cases t with h | ⟨q, hq, h⟩
  · rw [h]
    exact ⟨hne, hw⟩
  · rw [h]
    obtain ⟨h1, h2⟩ := nameTable_out_digits q hq
    exact ⟨h1, fun c hc => isDigit_isWordChar (h2 c hc)⟩

theorem substName_class {r : List Char} (hc : runClass r = true) :
    runClass (substName r) = true := by
  rcases substName_cases r with h | ⟨q, hq, h⟩
  · rw [h]
    exact hc
  · rw [h]
    obtain ⟨h1, h2⟩ := nameTable_out_digits q hq
    cases hq2 : q.2 with
    | nil => exact absurd hq2 h1
    | cons a as =>
      show isWordChar ((a :: as).headD (' ')) = true
      rw [List.headD_cons]
      exact isDigit_isWordChar (h2 a (hq2 ▸ List.mem_cons_self a as))

theorem applyRun_class (r : List Char) :
    runClass (applyRun substName r) = runClass r := by
  rw [applyRun]
  by_cases hc : runClass r = true
  · rw [if_pos hc, hc, substName_class hc]
  · rw [if_neg hc]

theorem applyRun_idem (r : List Char) :
    applyRun substName (applyRun substName r) = applyRun substName r := by
  by_cases hc : runClass r = true
  · rw [applyRun, applyRun_class r, if_pos hc, applyRun, if_pos hc, substName_idem]
  · rw [applyRun, applyRun_class r, if_neg hc, applyRun, if_neg hc]

/-! ### Reassembling a canonical run list -/

theorem splitRuns_flatten_of :
    ∀ (rs : List (List Char)),
      (∀ r ∈ rs, r ≠ []) →
      (∀ r ∈ rs, ∀ a ∈ r, isWordChar a = runClass r) →
      List.Chain' (fun r s => runClass r ≠ runClass s) rs →
      splitRuns rs.flatten = rs := by
  intro rs
  induction rs with
  | nil => intro _ _ _; rfl
  | cons r rest ih =>
    intro hne hhom hch
    rw [List.flatten_cons]
    have hhead : ∀ d, rest.flatten.head? = some d → isWordChar d ≠ runClass r := by
      intro d hd
      cases rest with
      | nil => simp at hd
      | cons s rest2 =>
        have hs_ne : s ≠ [] :=
          hne s (List.mem_cons_of_mem r (List.mem_cons_self s rest2))
        have h2 : runClass r ≠ runClass s := (List.chain'_cons.1 hch).1
        have hmem : d ∈ s := by
          cases s with
          | nil => exact absurd rfl hs_ne
          | cons e es =>
            rw [List.flatten_cons, List.cons_append, List.head?_cons] at hd
            injection hd with h
            exact h ▸ List.mem_cons_self e es
        have h1 : isWordChar d = runClass s :=
          hhom s (List.mem_cons_of_mem r (List.mem_cons_self s rest2)) d hmem
        rw [h1]
        exact fun he => h2 he.symm
    rw [splitRuns_word_append (hne r (List.mem_cons_self r rest))
        (hhom r (List.mem_cons_self r rest)) hhead,
      ih (fun q hq => hne q (List.mem_cons_of_mem r hq))
        (fun q hq => hhom q (List.mem_cons_of_mem r hq)) hch.tail]

theorem mapped_runs_ne_nil (l : List Char) :
    ∀ r ∈ (splitRuns l).map (applyRun substName), r ≠ [] := by
  intro r hr
  obtain ⟨r0, hr0, rfl⟩ := List.mem_map.1 hr
  have hne0 := splitRuns_ne_nil l r0 hr0
  rw [applyRun]
  by_cases hc : runClass r0 = true
  · rw [if_pos hc]
    exact (substName_word hne0
      (fun c hcm => (splitRuns_homog l r0 hr0 c hcm).trans hc)).1
  · rw [if_neg hc]
    exact hne0

theorem mapped_runs_homog (l : List Char) :
    ∀ r ∈ (splitRuns l).map (applyRun substName),
      ∀ a ∈ r, isWordChar a = runClass r := by
  intro r hr a ha
  obtain ⟨r0, hr0, rfl⟩ := List.mem_map.1 hr
  rw [applyRun_class]
  rw [applyRun] at ha
  by_cases hc : runClass r0 = true
  · rw [if_pos hc] at ha
    rw [hc]
    exact (substName_word (splitRuns_ne_nil l r0 hr0)
      (fun c hcm => (splitRuns_homog l r0 hr0 c hcm).trans hc)).2 a ha
  · rw [if_neg hc] at ha
    exact splitRuns_homog l r0 hr0 a ha

theorem mapped_runs_chain (l : List Char) :
    List.Chain' (fun r s => runClass r ≠ runClass s)
      ((splitRuns l).map (applyRun substName)) := by
  rw [List.chain'_map]
  refine (splitRuns_chain l).imp ?_
  intro a b hab
  rw [applyRun_class, applyRun_class]
  exact hab

theorem tokenMap_substName_idem (l : List Char) :
    tokenMap substName (tokenMap substName l) = tokenMap substName l := by
  have hmapmap : (((splitRuns l).map (applyRun substName)).map (applyRun substName))
      = (splitRuns l).map (applyRun substName) := by
    rw [List.map_map]
    exact List.map_congr_left (fun r _ => applyRun_idem r)
  rw [tokenMap, tokenMap,
    splitRuns_flatten_of _ (mapped_runs_ne_nil l) (mapped_runs_homog l)
      (mapped_runs_chain l), hmapmap]

/-! ### Lower-casing -/

theorem char_toNat_ofNat {m : Nat} (h : m < 55296) :
    (Char.ofNat m).toNat = m := by
  rw [Char.ofNat, dif_pos (Or.inl h)]
  rfl

theorem toLower_of_upper {c : Char} (h : c.toNat ≥ 65 ∧ c.toNat ≤ 90) :
    c.toLower = Char.ofNat (c.toNat + 32) := by
  simp only [Char.toLower]
  rw [if_pos h]

theorem toLower_of_not_upper {c : Char} (h : ¬(c.toNat ≥ 65 ∧ c.toNat ≤ 90)) :
    c.toLower = c := by
  simp only [Char.toLower]
  rw [if_neg h]

theorem toLower_toLower (c : Char) : c.toLower.toLower = c.toLower := by
  by_cases h : c.toNat ≥ 65 ∧ c.toNat ≤ 90
  · rw [toLower_of_upper h]
    have ht : (Char.ofNat (c.toNat + 32)).toNat = c.toNat + 32 :=
      char_toNat_ofNat (by omega)
    rw [toLower_of_not_upper (by rw [ht]; omega)]
  · rw [toLower_of_not_upper h, toLower_of_not_upper h]

theorem isWS_iff_toNat (c : Char) :
    isWS c = true ↔ c.toNat = 32 ∨ c.toNat = 9 ∨ c.toNat = 13 ∨ c.toNat = 10 := by
  rw [isWS, Char.isWhitespace]
  constructor
  · intro h
    simp only [Bool.or_eq_true, decide_eq_true_eq] at h
    rcases h with ((h | h) | h) | h <;> subst h <;> decide
  · intro h
    have hc : Char.ofNat c.toNat = c := Char.ofNat_toNat c
    rcases h with h | h | h | h <;> rw [h] at hc <;> rw [← hc] <;> decide

theorem isWS_false_of_toNat (c : Char) (h1 : c.toNat ≠ 32) (h2 : c.toNat ≠ 9)
    (h3 : c.toNat ≠ 13) (h4 : c.toNat ≠ 10) : isWS c = false := by
  by_contra h
  rw [Bool.not_eq_false] at h
  rcases (isWS_iff_toNat c).1 h with h | h | h | h
  exacts [h1 h, h2 h, h3 h, h4 h]

theorem isWS_toLower (c : Char) : isWS c.toLower = isWS c := by
  by_cases h : c.toNat ≥ 65 ∧ c.toNat ≤ 90
  · rw [toLower_of_upper h]
    have ht : (Char.ofNat (c.toNat + 32)).toNat = c.toNat + 32 :=
      char_toNat_ofNat (by omega)
    rw [isWS_false_of_toNat (Char.ofNat (c.toNat + 32))
        (by omega) (by omega) (by omega) (by omega),
      isWS_false_of_toNat c (by omega) (by omega) (by omega) (by omega)]
  · rw [toLower_of_not_upper h]

/-! ### Trimming -/

theorem head?_dropWhile_not (p : Char → Bool) :
    ∀ (l : List Char) (c : Char), (l.dropWhile p).head? = some c → p c = false := by
  intro l
  induction l with
  | nil => intro c h; simp at h
  | cons a l2 ih =>
    intro c h
    rw [List.dropWhile_cons] at h
    by_cases hp : p a = true
    · rw [if_pos hp] at h
      exact ih c h
    · rw [if_neg hp] at h
      rw [List.head?_cons] at h
      injection h with h
      subst h
      exact Bool.eq_false_iff.2 hp

theorem dropWhile_eq_self_of_head (p : Char → Bool) (l : List Char)
    (h : ∀ c, l.head? = some c → p c = false) : l.dropWhile p = l := by
  cases l with
  | nil => rfl
  | cons a l2 =>
    rw [List.dropWhile_cons, h a rfl]
    simp

theorem trimChars_eq_self {l : List Char}
    (h1 : ∀ c, l.head? = some c → isWS c = false)
    (h2 : ∀ c, l.getLast? = some c → isWS c = false) : trimChars l = l := by
  rw [trimChars, dropWhile_eq_self_of_head isWS l h1,
    dropWhile_eq_self_of_head isWS l.reverse
      (fun c hc => h2 c (by rwa [List.head?_reverse] at hc))]
  exact List.reverse_reverse l

theorem trimChars_head_not (l : List Char) :
    ∀ c, (trimChars l).head? = some c → isWS c = false := by
  intro c hc
  rw [trimChars, List.head?_reverse] at hc
  have hsuff : List.dropWhile isWS ((List.dropWhile isWS l).reverse) <:+
      (List.dropWhile isWS l).reverse := List.dropWhile_suffix isWS
  obtain ⟨pre, hpre⟩ := hsuff
  have hlast : ((List.dropWhile isWS l).reverse).getLast? = some c := by
    rw [← hpre, List.getLast?_append, hc]
    rfl
  rw [List.getLast?_reverse] at hlast
  exact head?_dropWhile_not isWS l c hlast

theorem trimChars_last_not (l : List Char) :
    ∀ c, (trimChars l).getLast? = some c → isWS c = false := by
  intro c hc
  rw [trimChars, List.getLast?_reverse] at hc
  exact head?_dropWhile_not isWS _ c hc

theorem lcTrim_head_not (l : List Char) :
    ∀ c, (lcTrim l).head? = some c → isWS c = false := by
  intro c hc
  rw [lcTrim, List.head?_map] at hc
  cases hh : (trimChars l).head? with
  | none => rw [hh] at hc; simp at hc
  | some d =>
    rw [hh] at hc
    injection hc with hc
    subst hc
    rw [isWS_toLower]
    exact trimChars_head_not l d hh

theorem lcTrim_last_not (l : List Char) :
    ∀ c, (lcTrim l).getLast? = some c → isWS c = false := by
  intro c hc
  rw [lcTrim, List.getLast?_map] at hc
  cases hh : (trimChars l).getLast? with
  | none => rw [hh] at hc; simp at hc
  | some d =>
    rw [hh] at hc
    injection hc with hc
    subst hc
    rw [isWS_toLower]
    exact trimChars_last_not l d hh

/-! ### The token map keeps the ends of a trimmed string non-blank -/

theorem head_from_first_run {l r : List Char} {rs : List (List Char)}
    (hsr : splitRuns l = r :: rs) {X : List Char} {c : Char}
    (hc : (r ++ X).head? = some c)
    (h : ∀ c, l.head? = some c → isWS c = false) : isWS c = false := by
  have hrne := splitRuns_ne_nil l r (hsr ▸ List.mem_cons_self r rs)
  cases hr : r with
  | nil => exact absurd hr hrne
  | cons a as =>
    rw [hr, List.cons_append, List.head?_cons] at hc
    injection hc with hc
    subst hc
    apply h a
    have hfl := splitRuns_flatten l
    rw [hsr, List.flatten_cons, hr, List.cons_append] at hfl
    rw [← hfl]
    rfl

theorem tokenMap_head_not (l : List Char)
    (h : ∀ c, l.head? = some c → isWS c = false) :
    ∀ c, (tokenMap substName l).head? = some c → isWS c = false := by
  intro c hc
  rw [tokenMap] at hc
  cases hsr : splitRuns l with
  | nil => rw [hsr] at hc; simp at hc
  | cons r rs =>
    rw [hsr, List.map_cons, List.flatten_cons] at hc
    by_cases hw : runClass r = true
    · rw [applyRun, if_pos hw] at hc
      rcases substName_cases r with hsn | ⟨q, hq, hsn⟩
      · rw [hsn] at hc
        exact head_from_first_run hsr hc h
      · rw [hsn] at hc
        obtain ⟨hqne, hqd⟩ := nameTable_out_digits q hq
        cases hq2 : q.2 with
        | nil => exact absurd hq2 hqne
        | cons a as =>
          rw [hq2, List.cons_append, List.head?_cons] at hc
          injection hc with hc
          exact hc ▸ isDigit_not_isWS (hqd a (hq2 ▸ List.mem_cons_self a as))
    · rw [applyRun, if_neg hw] at hc
      exact head_from_first_run hsr hc h

theorem flatten_getLast?_of {rs : List (List Char)} (hne : ∀ r ∈ rs, r ≠ []) :
    ∀ {r : List Char}, rs.getLast? = some r → rs.flatten.getLast? = r.getLast? := by
  induction rs with
  | nil => intro r h; simp at h
  | cons s rs2 ih =>
    intro r h
    cases rs2 with
    | nil =>
      rw [List.getLast?_singleton] at h
      injection h with h
      rw [List.flatten_cons, List.flatten_nil, List.append_nil, h]
    | cons s2 rs3 =>
      rw [List.getLast?_cons_cons] at h
      rw [List.flatten_cons, List.getLast?_append,
        ih (fun q hq => hne q (List.mem_cons_of_mem s hq)) h]
      have hrne : r ≠ [] :=
        hne r (List.mem_cons_of_mem s (List.mem_of_getLast?_eq_some h))
      cases hg : r.getLast? with
      | none => exact absurd (List.getLast?_eq_none_iff.1 hg) hrne
      | some a => rfl

theorem last_from_run {l rl : List Char}
    (hoc : (splitRuns l).getLast? = some rl) {c : Char}
    (hc : rl.getLast? = some c)
    (h : ∀ c, l.getLast? = some c → isWS c = false) : isWS c = false := by
  apply h
  have hfl := flatten_getLast?_of (splitRuns_ne_nil l) hoc
  rw [splitRuns_flatten l] at hfl
  rw [hfl, hc]

theorem tokenMap_last_not (l : List Char)
    (h : ∀ c, l.getLast? = some c → isWS c = false) :
    ∀ c, (tokenMap substName l).getLast? = some c → isWS c = false := by
  intro c hc
  rw [tokenMap] at hc
  cases hrl : (splitRuns l).getLast? with
  | none =>
    rw [List.getLast?_eq_none_iff.1 hrl] at hc
    simp at hc
  | some rl =>
    have hmap : ((splitRuns l).map (applyRun substName)).getLast? =
        some (applyRun substName rl) := by
      rw [List.getLast?_map, hrl]
      rfl
    rw [flatten_getLast?_of (mapped_runs_ne_nil l) hmap] at hc
    by_cases hw : runClass rl = true
    · rw [applyRun, if_pos hw] at hc
      rcases substName_cases rl with hsn | ⟨q, hq, hsn⟩
      · rw [hsn] at hc
        exact last_from_run hrl hc h
      · rw [hsn] at hc
        obtain ⟨_, hqd⟩ := nameTable_out_digits q hq
        exact isDigit_not_isWS (hqd c (List.mem_of_getLast?_eq_some hc))
    · rw [applyRun, if_neg hw] at hc
      exact last_from_run hrl hc h

/-! ### Character provenance through the token map -/

theorem tokenMap_chars (l : List Char) :
    ∀ c ∈ tokenMap substName l, c ∈ l ∨ ∃ q ∈ nameTable, c ∈ q.2 := by
  intro c hc
  rw [tokenMap, List.mem_flatten] at hc
  obtain ⟨r1, hr1, hcr⟩ := hc
  obtain ⟨r0, hr0, rfl⟩ := List.mem_map.1 hr1
  have hsub : c ∈ r0 ∨ ∃ q ∈ nameTable, c ∈ q.2 := by
    rw [applyRun] at hcr
    by_cases hw : runClass r0 = true
    · rw [if_pos hw] at hcr
      rcases substName_cases r0 with hsn | ⟨q, hq, hsn⟩
      · rw [hsn] at hcr
        exact Or.inl hcr
      · rw [hsn] at hcr
        exact Or.inr ⟨q, hq, hcr⟩
    · rw [if_neg hw] at hcr
      exact Or.inl hcr
  rcases hsub with h1 | h2
  · left
    rw [← splitRuns_flatten l]
    exact List.mem_flatten.2 ⟨r0, hr0, h1⟩
  · exact Or.inr h2

theorem tokenMap_eq_self_of_no_digit {l : List Char}
    (h : ∀ c ∈ tokenMap substName l, c.isDigit = false) :
    tokenMap substName l = l := by
  have hrun : ∀ r ∈ splitRuns l, applyRun substName r = r := by
    intro r hr
    rw [applyRun]
    by_cases hw : runClass r = true
    · rw [if_pos hw]
      rcases substName_cases r with hsn | ⟨q, hq, hsn⟩
      · exact hsn
      · exfalso
        obtain ⟨hqne, hqd⟩ := nameTable_out_digits q hq
        cases hq2 : q.2 with
        | nil => exact absurd hq2 hqne
        | cons a as =>
          have hmem : a ∈ tokenMap substName l := by
            rw [tokenMap, List.mem_flatten]
            refine ⟨applyRun substName r, List.mem_map_of_mem _ hr, ?_⟩
            rw [applyRun, if_pos hw, hsn, hq2]
            exact List.mem_cons_self a as
          have hfalse := h a hmem
          rw [hqd a (hq2 ▸ List.mem_cons_self a as)] at hfalse
          exact absurd hfalse (by simp)
    · rw [if_neg hw]
  have hmap : (splitRuns l).map (applyRun substName) = splitRuns l := by
    calc (splitRuns l).map (applyRun substName)
        = (splitRuns l).map id := List.map_congr_left (fun r hr => hrun r hr)
      _ = splitRuns l := List.map_id _
  rw [tokenMap, hmap, splitRuns_flatten]

/-! ### The alias table outputs are normalization fixed points -/

theorem specials_fixed :
    ∀ q ∈ specialStrings,
      lcTrim q.2 = q.2 ∧
      specialStrings.find? (fun p => p.1 == q.2) = none ∧
      tokenMap substName q.2 = q.2 := by decide

theorem specials_keys_no_digit :
    ∀ q ∈ specialStrings, ∀ c ∈ q.1, c.isDigit = false := by decide

theorem map_toLower_eq_self {l : List Char}
    (h : ∀ c ∈ l, c.toLower = c) : l.map Char.toLower = l := by
  calc l.map Char.toLower = l.map id := List.map_congr_left h
    _ = l := List.map_id l

/-- C10: normalization is idempotent — normalizing the output of
`normalizeExpression` returns it unchanged, for every input string.  An
alias expansion yields one of the seven canonical strings, each already
trimmed, lower-case, alias-free and name-free; any other output is the
trimmed lower-cased input with whole-word names replaced by digit
strings, which a second pass trims, lowercases and substitutes without
effect. -/
theorem C10_normalize_idempotent (l : List Char) :
    normalizeExpression (normalizeExpression l) = normalizeExpression l := by
  cases hf : specialStrings.find? (fun p => p.1 == lcTrim l) with
  | some q =>
    have hq := List.mem_of_find?_eq_some hf
    have h1 : normalizeExpression l = q.2 := by rw [normalizeExpression, hf]
    obtain ⟨ht, hfind, htok⟩ := specials_fixed q hq
    rw [h1, normalizeExpression, ht, hfind]
    exact htok
  | none =>
    have h1 : normalizeExpression l = tokenMap substName (lcTrim l) := by
      rw [normalizeExpression, hf]
    rw [h1]
    have hlower : (tokenMap substName (lcTrim l)).map Char.toLower =
        tokenMap substName (lcTrim l) := by
      apply map_toLower_eq_self
      intro c hc
      rcases tokenMap_chars (lcTrim l) c hc with hmem | ⟨q, hq, hmem⟩
      · rw [lcTrim] at hmem
        obtain ⟨d, _, rfl⟩ := List.mem_map.1 hmem
        exact toLower_toLower d
      · exact nameTable_out_toLower q hq c hmem
    have htrim : trimChars (tokenMap substName (lcTrim l)) =
        tokenMap substName (lcTrim l) :=
      trimChars_eq_self
        (tokenMap_head_not (lcTrim l) (lcTrim_head_not l))
        (tokenMap_last_not (lcTrim l) (lcTrim_last_not l))
    have hlct : lcTrim (tokenMap substName (lcTrim l)) =
        tokenMap substName (lcTrim l) := by
      rw [lcTrim, htrim, hlower]
    have hnotkey : specialStrings.find?
        (fun p => p.1 == lcTrim (tokenMap substName (lcTrim l))) = none := by
      rw [hlct, List.find?_eq_none]
      intro q hq
      simp only [beq_iff_eq]
      intro he
      have hnd : ∀ c ∈ tokenMap substName (lcTrim l), c.isDigit = false := by
        rw [← he]
        exact specials_keys_no_digit q hq
      have hy : tokenMap substName (lcTrim l) = lcTrim l :=
        tokenMap_eq_self_of_no_digit hnd
      rw [hy] at he
      have hnone := List.find?_eq_none.1 hf q hq
      exact hnone (by simp [he])
    rw [normalizeExpression, hnotkey, hlct]
    exact tokenMap_substName_idem (lcTrim l)

end Cron
